import Mathlib

/-!
# Verification of the alist Baidu Netdisk upload design and npm launcher

This development embeds, as Lean definitions, (a) the chunked-upload
pipeline specified for the Baidu Netdisk driver (Chunk Planner, Upload
Session, Retry/Backoff Controller, Endpoint Resolver, Transfer Worker
Pool, single-flight endpoint re-resolution) and (b) the JavaScript
launcher (`alist.js`) and installer (`scripts/download-binary.js`), and
proves the stated properties about them.
-/

namespace AlistUpload

/-- A chunk of a file upload: a contiguous byte range with its position
in the plan, mirroring the spec's Chunk record
(index, offset, size, uploaded). -/
structure Chunk where
  index : Nat
  offset : Nat
  size : Nat
  uploaded : Bool
deriving Repr, DecidableEq

/-- Modelled from the spec: the Chunk Planner implementation is not in
the provided source (only the driver's declarative configuration is).
Minimum part size used by the "auto" part-size derivation. -/
def MIN_AUTO_PART_SIZE : Nat := 4 * 1024 * 1024

/-- Modelled from the spec: maximum part size used by the "auto"
part-size derivation (ceiling on chunk size). -/
def MAX_AUTO_PART_SIZE : Nat := 128 * 1024 * 1024

/-- Modelled from the spec: target chunk count proportional to the
thread count ("target chunk count proportional to threadCount"). -/
def TARGET_CHUNKS_PER_THREAD : Nat := 4

/-- Modelled from the spec: when partSizeHint is zero ("auto"), derive a
part size from totalSize and threadCount so that the chunk count stays
within a bounded range, with a minimum and maximum chunk size
floor/ceiling. -/
def autoPartSize (totalSize threadCount : Nat) : Nat :=
  let target := threadCount * TARGET_CHUNKS_PER_THREAD
  let base := if target = 0 then totalSize else (totalSize + target - 1) / target
  min MAX_AUTO_PART_SIZE (max MIN_AUTO_PART_SIZE base)

/-- Modelled from the spec: the part size actually used by the planner —
a nonzero partSizeHint is honored exactly, zero means "auto". -/
def effectivePartSize (totalSize partSizeHint threadCount : Nat) : Nat :=
  if partSizeHint = 0 then autoPartSize totalSize threadCount else partSizeHint

/-- Modelled from the spec: the planner's chunking loop. Starting at
chunk `idx` and byte `off`, cut `remaining` bytes into parts of size
`p`, the last part taking the remainder. -/
def chunksFrom (idx off remaining p : Nat) : List Chunk :=
  match p with
  | 0 => if remaining = 0 then [] else [⟨idx, off, remaining, false⟩]
  | q + 1 =>
    if h : remaining = 0 then []
    else if remaining ≤ q + 1 then [⟨idx, off, remaining, false⟩]
    else ⟨idx, off, q + 1, false⟩ ::
      chunksFrom (idx + 1) (off + (q + 1)) (remaining - (q + 1)) (q + 1)
termination_by remaining
decreasing_by
  exact Nat.sub_lt (Nat.pos_of_ne_zero h) (Nat.succ_pos q)

/-- Modelled from the spec: the Chunk Planner's
`plan(totalSize, partSizeHint, threadCount) -> ChunkPlan`. The
degenerate case totalSize = 0 yields a single zero-size chunk. -/
def plan (totalSize partSizeHint threadCount : Nat) : List Chunk :=
  if totalSize = 0 then [⟨0, 0, 0, false⟩]
  else chunksFrom 0 0 totalSize (effectivePartSize totalSize partSizeHint threadCount)

/-- Total number of bytes covered by a chunk list. -/
def sizesSum (cs : List Chunk) : Nat := (cs.map Chunk.size).sum

/-- The chunks cover adjacent byte ranges starting at `off`: each
chunk's offset equals the previous chunk's offset plus size. -/
def contiguousFromB (off : Nat) : List Chunk → Bool
  | [] => true
  | c :: rest => decide (c.offset = off) && contiguousFromB (off + c.size) rest

/-- The chunks carry consecutive indices starting at `i`. -/
def indexedFromB (i : Nat) : List Chunk → Bool
  | [] => true
  | c :: rest => decide (c.index = i) && indexedFromB (i + 1) rest

theorem chunksFrom_sum (p : Nat) :
    ∀ r idx off, sizesSum (chunksFrom idx off r p) = r := by
  match p with
  | 0 =>
    intro r idx off
    cases r with
    | zero => simp [chunksFrom, sizesSum]
    | succ s => simp [chunksFrom, sizesSum]
  | q + 1 =>
    intro r
    induction r using Nat.strong_induction_on with
    | _ r ih =>
      intro idx off
      by_cases h0 : r = 0
      · subst h0; simp [chunksFrom, sizesSum]
      · by_cases hle : r ≤ q + 1
        · simp [chunksFrom, h0, hle, sizesSum]
        · rw [chunksFrom]
          simp only [h0, hle, if_false, dif_neg]
          have hlt : r - (q + 1) < r :=
            Nat.sub_lt (Nat.pos_of_ne_zero h0) (Nat.succ_pos q)
          have := ih (r - (q + 1)) hlt (idx + 1) (off + (q + 1))
          simp [sizesSum] at this ⊢
          omega

theorem chunksFrom_contiguous (p : Nat) :
    ∀ r idx off, contiguousFromB off (chunksFrom idx off r p) = true := by
  match p with
  | 0 =>
    intro r idx off
    cases r with
    | zero => simp [chunksFrom, contiguousFromB]
    | succ s => simp [chunksFrom, contiguousFromB]
  | q + 1 =>
    intro r
    induction r using Nat.strong_induction_on with
    | _ r ih =>
      intro idx off
      by_cases h0 : r = 0
      · subst h0; simp [chunksFrom, contiguousFromB]
      · by_cases hle : r ≤ q + 1
        · simp [chunksFrom, h0, hle, contiguousFromB]
        · rw [chunksFrom]
          simp only [h0, hle, if_false, dif_neg]
          have hlt : r - (q + 1) < r :=
            Nat.sub_lt (Nat.pos_of_ne_zero h0) (Nat.succ_pos q)
          simp [contiguousFromB]
          exact ih (r - (q + 1)) hlt (idx + 1) (off + (q + 1))

theorem chunksFrom_indexed (p : Nat) :
    ∀ r idx off, indexedFromB idx (chunksFrom idx off r p) = true := by
  match p with
  | 0 =>
    intro r idx off
    cases r with
    | zero => simp [chunksFrom, indexedFromB]
    | succ s => simp [chunksFrom, indexedFromB]
  | q + 1 =>
    intro r
    induction r using Nat.strong_induction_on with
    | _ r ih =>
      intro idx off
      by_cases h0 : r = 0
      · subst h0; simp [chunksFrom, indexedFromB]
      · by_cases hle : r ≤ q + 1
        · simp [chunksFrom, h0, hle, indexedFromB]
        · rw [chunksFrom]
          simp only [h0, hle, if_false, dif_neg]
          have hlt : r - (q + 1) < r :=
            Nat.sub_lt (Nat.pos_of_ne_zero h0) (Nat.succ_pos q)
          simp [indexedFromB]
          exact ih (r - (q + 1)) hlt (idx + 1) (off + (q + 1))

theorem offset_lower_bound_of_contiguous :
    ∀ (cs : List Chunk) (off : Nat), contiguousFromB off cs = true →
      ∀ c ∈ cs, off ≤ c.offset := by
  intro cs
  induction cs with
  | nil => intro off _ c hc; cases hc
  | cons a rest ih =>
    intro off hcont c hc
    simp [contiguousFromB] at hcont
    rcases List.mem_cons.mp hc with hc | hc
    · subst hc; omega
    · have := ih (off + a.size) hcont.2 c hc
      omega

theorem pairwise_of_contiguous :
    ∀ (cs : List Chunk) (off : Nat), contiguousFromB off cs = true →
      List.Pairwise (fun a b => a.offset + a.size ≤ b.offset) cs := by
  intro cs
  induction cs with
  | nil => intro off _; exact List.Pairwise.nil
  | cons a rest ih =>
    intro off hcont
    simp [contiguousFromB] at hcont
    refine List.Pairwise.cons ?_ (ih (off + a.size) hcont.2)
    intro b hb
    have := offset_lower_bound_of_contiguous rest (off + a.size) hcont.2 b hb
    omega

theorem chunksFrom_ne_nil (p : Nat) :
    ∀ r idx off, 0 < r → chunksFrom idx off r p ≠ [] := by
  match p with
  | 0 =>
    intro r idx off hr
    have : r ≠ 0 := Nat.pos_iff_ne_zero.mp hr
    simp [chunksFrom, this]
  | q + 1 =>
    intro r idx off hr
    have h0 : r ≠ 0 := Nat.pos_iff_ne_zero.mp hr
    by_cases hle : r ≤ q + 1
    · simp [chunksFrom, h0, hle]
    · rw [chunksFrom]
      simp [h0, hle]

theorem chunksFrom_length (q : Nat) :
    ∀ r idx off, 0 < r →
      (chunksFrom idx off r (q + 1)).length = (r + q) / (q + 1) := by
  intro r
  induction r using Nat.strong_induction_on with
  | _ r ih =>
    intro idx off hr
    have h0 : r ≠ 0 := Nat.pos_iff_ne_zero.mp hr
    by_cases hle : r ≤ q + 1
    · have hdiv : (r + q) / (q + 1) = 1 :=
        Nat.div_eq_of_lt_le (by omega) (by omega)
      simp [chunksFrom, h0, hle, hdiv]
    · rw [chunksFrom]
      simp only [h0, hle, dite_false, if_false]
      have hlt : r - (q + 1) < r :=
        Nat.sub_lt (Nat.pos_of_ne_zero h0) (Nat.succ_pos q)
      have hrec := ih (r - (q + 1)) hlt (idx + 1) (off + (q + 1)) (by omega)
      have hrw : r + q = (r - (q + 1) + q) + (q + 1) := by omega
      rw [List.length_cons, hrec, hrw, Nat.add_div_right _ (Nat.succ_pos q)]

theorem chunksFrom_dropLast_size (q : Nat) :
    ∀ r idx off, ∀ c ∈ (chunksFrom idx off r (q + 1)).dropLast,
      c.size = q + 1 := by
  intro r
  induction r using Nat.strong_induction_on with
  | _ r ih =>
    intro idx off c hc
    by_cases h0 : r = 0
    · subst h0; simp [chunksFrom] at hc
    · by_cases hle : r ≤ q + 1
      · simp [chunksFrom, h0, hle] at hc
      · rw [chunksFrom] at hc
        simp only [h0, hle, dite_false, if_false] at hc
        have hlt : r - (q + 1) < r :=
          Nat.sub_lt (Nat.pos_of_ne_zero h0) (Nat.succ_pos q)
        have hne : chunksFrom (idx + 1) (off + (q + 1)) (r - (q + 1)) (q + 1) ≠ [] :=
          chunksFrom_ne_nil (q + 1) (r - (q + 1)) (idx + 1) (off + (q + 1)) (by omega)
        cases htl : chunksFrom (idx + 1) (off + (q + 1)) (r - (q + 1)) (q + 1) with
        | nil => exact absurd htl hne
        | cons b tl =>
          rw [htl, List.dropLast_cons₂] at hc
          rcases List.mem_cons.mp hc with hc | hc
          · subst hc; rfl
          · refine ih (r - (q + 1)) hlt (idx + 1) (off + (q + 1)) c ?_
            rw [htl]
            exact hc

theorem chunksFrom_getLast (q : Nat) :
    ∀ r idx off, 0 < r →
      ∃ c, (chunksFrom idx off r (q + 1)).getLast? = some c ∧
        c.size = r - (q + 1) * ((chunksFrom idx off r (q + 1)).length - 1) ∧
        c.size ≤ q + 1 ∧ 0 < c.size := by
  intro r
  induction r using Nat.strong_induction_on with
  | _ r ih =>
    intro idx off hr
    have h0 : r ≠ 0 := Nat.pos_iff_ne_zero.mp hr
    by_cases hle : r ≤ q + 1
    · refine ⟨⟨idx, off, r, false⟩, ?_⟩
      simp [chunksFrom, h0, hle]
      omega
    · have hlt : r - (q + 1) < r :=
        Nat.sub_lt (Nat.pos_of_ne_zero h0) (Nat.succ_pos q)
      obtain ⟨c, hlast, hsz, hub, hpos⟩ :=
        ih (r - (q + 1)) hlt (idx + 1) (off + (q + 1)) (by omega)
      have hne : chunksFrom (idx + 1) (off + (q + 1)) (r - (q + 1)) (q + 1) ≠ [] :=
        chunksFrom_ne_nil (q + 1) (r - (q + 1)) (idx + 1) (off + (q + 1)) (by omega)
      have hlen : 0 < (chunksFrom (idx + 1) (off + (q + 1)) (r - (q + 1)) (q + 1)).length :=
        List.length_pos.mpr hne
      set L := (chunksFrom (idx + 1) (off + (q + 1)) (r - (q + 1)) (q + 1)).length with hL
      refine ⟨c, ?_, ?_, hub, hpos⟩
      · rw [chunksFrom]
        simp only [h0, hle, dite_false, if_false]
        cases htl : chunksFrom (idx + 1) (off + (q + 1)) (r - (q + 1)) (q + 1) with
        | nil => exact absurd htl hne
        | cons b tl =>
          rw [List.getLast?_cons_cons]
          rw [htl] at hlast
          exact hlast
      · rw [chunksFrom]
        simp only [h0, hle, dite_false, if_false, List.length_cons]
        rw [hsz, ← hL]
        have h1 : L + 1 - 1 = L := by omega
        rw [h1]
        have hmul : (q + 1) * L = (q + 1) * (L - 1) + (q + 1) := by
          conv_lhs => rw [← Nat.succ_pred_eq_of_pos hlen]
          rw [Nat.mul_succ, Nat.pred_eq_sub_one]
        omega

/-- C1: for every totalSize, partSizeHint and threadCount, the ChunkPlan
returned by plan(totalSize, partSizeHint, threadCount) has chunk sizes
summing exactly to totalSize, is contiguous from offset 0 (each chunk's
offset equals the previous chunk's offset plus size), carries
consecutive indices from 0 in byte order, and its chunks are pairwise
non-overlapping (each chunk's byte range ends before the next begins). -/
theorem plan_sum_contiguous_indexed (t h tc : Nat) :
    sizesSum (plan t h tc) = t ∧
    contiguousFromB 0 (plan t h tc) = true ∧
    indexedFromB 0 (plan t h tc) = true ∧
    List.Pairwise (fun a b => a.offset + a.size ≤ b.offset) (plan t h tc) := by
  by_cases ht : t = 0
  · subst ht
    refine ⟨?_, ?_, ?_, ?_⟩ <;>
      simp [plan, sizesSum, contiguousFromB, indexedFromB]
  · have hcont : contiguousFromB 0 (plan t h tc) = true := by
      simp only [plan, ht, if_false]
      exact chunksFrom_contiguous _ t 0 0
    refine ⟨?_, hcont, ?_, ?_⟩
    · simp only [plan, ht, if_false]
      exact chunksFrom_sum _ t 0 0
    · simp only [plan, ht, if_false]
      exact chunksFrom_indexed _ t 0 0
    · exact pairwise_of_contiguous _ 0 hcont

/-- C5: for totalSize = 0 and every partSizeHint and threadCount, the
plan is exactly one chunk of size 0 (the empty-file upload path). -/
theorem plan_zero_total_single_empty_chunk (h tc : Nat) :
    (plan 0 h tc).length = 1 ∧ ∀ c ∈ plan 0 h tc, c.size = 0 := by
  constructor
  · simp [plan]
  · intro c hc
    simp [plan] at hc
    subst hc
    rfl

/-- C4: for totalSize > 0 and nonzero partSizeHint, the plan has exactly
ceil(totalSize / partSizeHint) chunks (written (t + h - 1) / h over Nat),
every chunk except the last has size exactly partSizeHint, and the last
chunk takes the remaining bytes t - h * (count - 1), which is positive
and at most partSizeHint. -/
theorem plan_honors_part_size_hint (t h tc : Nat) (ht : 0 < t) (hh : 0 < h) :
    (plan t h tc).length = (t + h - 1) / h ∧
    (∀ c ∈ (plan t h tc).dropLast, c.size = h) ∧
    (∃ c, (plan t h tc).getLast? = some c ∧
      c.size = t - h * ((plan t h tc).length - 1) ∧
      c.size ≤ h ∧ 0 < c.size) := by
  have ht0 : t ≠ 0 := Nat.pos_iff_ne_zero.mp ht
  have hh0 : h ≠ 0 := Nat.pos_iff_ne_zero.mp hh
  have heff : effectivePartSize t h tc = h := by
    simp [effectivePartSize, hh0]
  have hq : h = (h - 1) + 1 := by omega
  have hplan : plan t h tc = chunksFrom 0 0 t ((h - 1) + 1) := by
    rw [plan, if_neg ht0, heff, ← hq]
  refine ⟨?_, ?_, ?_⟩
  · rw [hplan, chunksFrom_length (h - 1) t 0 0 ht]
    have : t + (h - 1) = t + h - 1 := by omega
    rw [this, ← hq]
  · intro c hc
    rw [hplan] at hc
    have := chunksFrom_dropLast_size (h - 1) t 0 0 c hc
    omega
  · obtain ⟨c, hlast, hsz, hub, hpos⟩ := chunksFrom_getLast (h - 1) t 0 0 ht
    refine ⟨c, ?_, ?_, ?_, hpos⟩
    · rw [hplan]; exact hlast
    · rw [hplan, ← hq]
      rw [← hq] at hsz
      exact hsz
    · omega

/-- Closed instance of plan_honors_part_size_hint at totalSize = 5,
partSizeHint = 2, threadCount = 3. -/
theorem plan_honors_part_size_hint_witness :
    (0 < 5 ∧ 0 < 2) ∧
    ((plan 5 2 3).length = (5 + 2 - 1) / 2 ∧
     (∀ c ∈ (plan 5 2 3).dropLast, c.size = 2) ∧
     (∃ c, (plan 5 2 3).getLast? = some c ∧
       c.size = 5 - 2 * ((plan 5 2 3).length - 1) ∧
       c.size ≤ 2 ∧ 0 < c.size)) :=
  ⟨⟨by decide, by decide⟩, plan_honors_part_size_hint 5 2 3 (by decide) (by decide)⟩

/-! ## Upload Session: chunk completion and finalize ordering -/

/-- Terminal status one chunk reports to the session: either it uploaded
successfully, or it failed permanently (exhausted its retry budget). -/
inductive ChunkOutcome
  | uploadedOk
  | failedPermanently
deriving Repr, DecidableEq

/-- Observable calls the session issues, in order: per-chunk terminal
completion reports, then possibly the finalize (commit) call. -/
inductive SessionEvent
  | chunkDone (index : Nat)
  | finalize
deriving Repr, DecidableEq

/-- Every chunk in the plan reports uploaded=true. -/
def allUploaded (results : List ChunkOutcome) : Bool :=
  results.all (fun r => r = ChunkOutcome.uploadedOk)

/-- Modelled from the spec: the Upload Session implementation is not in
the provided source. The session waits for every chunk to reach a
terminal state; on full success it issues exactly one finalize call, and
if any chunk failed permanently it aborts without attempting finalize.
The trace lists the session's observable events in order. -/
def sessionTrace (results : List ChunkOutcome) : List SessionEvent :=
  (List.range results.length).map SessionEvent.chunkDone ++
    (if allUploaded results then [SessionEvent.finalize] else [])

theorem finalize_not_mem_chunkEvents (n : Nat) :
    SessionEvent.finalize ∉ (List.range n).map SessionEvent.chunkDone := by
  intro hmem
  obtain ⟨i, _, hi⟩ := List.mem_map.mp hmem
  cases hi

theorem count_finalize_chunkEvents (n : Nat) :
    ((List.range n).map SessionEvent.chunkDone).count SessionEvent.finalize = 0 :=
  List.count_eq_zero.mpr (finalize_not_mem_chunkEvents n)

/-- C2: at most one finalize call per session; a finalize call implies
every chunk reported uploaded=true; a session with a permanently failed
chunk issues no finalize; and when finalize occurs it is the last event,
strictly after every chunk's terminal completion report. -/
theorem session_finalize_policy (results : List ChunkOutcome) :
    (sessionTrace results).count SessionEvent.finalize ≤ 1 ∧
    ((sessionTrace results).count SessionEvent.finalize = 1 →
      allUploaded results = true) ∧
    ((∃ r ∈ results, r = ChunkOutcome.failedPermanently) →
      (sessionTrace results).count SessionEvent.finalize = 0) ∧
    (SessionEvent.finalize ∈ sessionTrace results →
      (sessionTrace results).getLast? = some SessionEvent.finalize ∧
      ∀ i < results.length,
        SessionEvent.chunkDone i ∈ (sessionTrace results).dropLast) := by
  by_cases hall : allUploaded results = true
  · have htr : sessionTrace results =
        (List.range results.length).map SessionEvent.chunkDone ++
          [SessionEvent.finalize] := by
      simp [sessionTrace, hall]
    have hcount : (sessionTrace results).count SessionEvent.finalize = 1 := by
      rw [htr, List.count_append, count_finalize_chunkEvents]
      rfl
    refine ⟨by omega, fun _ => hall, ?_, ?_⟩
    · rintro ⟨r, hr, hfail⟩
      subst hfail
      have := List.all_eq_true.mp hall _ hr
      simp at this
    · intro _
      constructor
      · rw [htr, List.getLast?_concat]
      · intro i hi
        rw [htr, List.dropLast_concat]
        exact List.mem_map.mpr ⟨i, List.mem_range.mpr hi, rfl⟩
  · have htr : sessionTrace results =
        (List.range results.length).map SessionEvent.chunkDone := by
      simp [sessionTrace, hall]
    have hcount : (sessionTrace results).count SessionEvent.finalize = 0 := by
      rw [htr, count_finalize_chunkEvents]
    refine ⟨by omega, by omega, fun _ => hcount, ?_⟩
    intro hmem
    rw [htr] at hmem
    exact absurd hmem (finalize_not_mem_chunkEvents _)

/-! ## Retry/Backoff Controller -/

/-- Error categories named by the spec's classification table. -/
inductive ErrKind
  | networkTimeout
  | serverError5xx
  | connectionReset
  | authFailure
  | malformedRequest
  | quotaExceeded
deriving Repr, DecidableEq

/-- Modelled from the spec: the explicit retryable-vs-fatal policy table
(network timeout, 5xx-class server error, connection reset are
retryable; authorization failure, malformed request, quota exceeded are
fatal). The Retry Controller itself is not in the provided source; only
UPLOAD_RETRY_COUNT and the wait bounds are declared there. -/
def isRetryable : ErrKind → Bool
  | .networkTimeout => true
  | .serverError5xx => true
  | .connectionReset => true
  | .authFailure => false
  | .malformedRequest => false
  | .quotaExceeded => false

/-- Outcome of one invocation of the wrapped operation. -/
inductive OpResult (α : Type)
  | success (v : α)
  | failure (e : ErrKind)
deriving Repr, DecidableEq

/-- Result of execute(op): a value, ExhaustedRetries carrying the last
error, or immediate propagation of a fatal error. -/
inductive ExecOutcome (α : Type)
  | value (v : α)
  | exhaustedRetries (last : ErrKind)
  | fatal (e : ErrKind)
deriving Repr, DecidableEq

/-- Modelled from the spec: the Retry/Backoff Controller loop. `op k` is
the outcome of the k-th invocation of the wrapped operation; the second
component of the result counts retries consumed (invocations after the
first). A retryable failure consumes a retry while budget remains; a
fatal failure propagates at once. -/
def executeFrom {α : Type} (op : Nat → OpResult α) (a : Nat) :
    Nat → ExecOutcome α × Nat
  | 0 =>
    match op a with
    | .success v => (.value v, 0)
    | .failure e =>
      if isRetryable e then (.exhaustedRetries e, 0) else (.fatal e, 0)
  | n + 1 =>
    match op a with
    | .success v => (.value v, 0)
    | .failure e =>
      if isRetryable e then
        let r := executeFrom op (a + 1) n
        (r.1, r.2 + 1)
      else (.fatal e, 0)

/-- Modelled from the spec: execute(op) with a maximum retry budget
(UPLOAD_RETRY_COUNT in the driver's configuration fragment). -/
def execute {α : Type} (maxAttempts : Nat) (op : Nat → OpResult α) :
    ExecOutcome α × Nat :=
  executeFrom op 0 maxAttempts

theorem executeFrom_exhausts {α : Type} (op : Nat → OpResult α)
    (err : Nat → ErrKind) :
    ∀ m a, (∀ k ≤ m, op (a + k) = .failure (err (a + k)) ∧
        isRetryable (err (a + k)) = true) →
      executeFrom op a m = (.exhaustedRetries (err (a + m)), m) := by
  intro m
  induction m with
  | zero =>
    intro a hfail
    obtain ⟨hop, hret⟩ := hfail 0 (Nat.le_refl 0)
    rw [Nat.add_zero] at hop hret
    simp [executeFrom, hop, hret]
  | succ n ih =>
    intro a hfail
    obtain ⟨hop, hret⟩ := hfail 0 (Nat.zero_le _)
    rw [Nat.add_zero] at hop hret
    have hrec := ih (a + 1) (fun k hk => by
      have := hfail (k + 1) (by omega)
      constructor
      · have h1 : a + (k + 1) = a + 1 + k := by omega
        rw [h1] at this
        exact this.1
      · have h1 : a + (k + 1) = a + 1 + k := by omega
        rw [h1] at this
        exact this.2)
    simp only [executeFrom, hop, hret, if_true, hrec]
    have h2 : a + 1 + n = a + (n + 1) := by omega
    rw [h2]

theorem executeFrom_succeeds {α : Type} (op : Nat → OpResult α)
    (err : Nat → ErrKind) (v : α) :
    ∀ N m a, N ≤ m →
      (∀ k < N, op (a + k) = .failure (err (a + k)) ∧
        isRetryable (err (a + k)) = true) →
      op (a + N) = .success v →
      executeFrom op a m = (.value v, N) := by
  intro N
  induction N with
  | zero =>
    intro m a _ _ hsucc
    rw [Nat.add_zero] at hsucc
    cases m <;> simp [executeFrom, hsucc]
  | succ n ih =>
    intro m a hle hfail hsucc
    obtain ⟨hop, hret⟩ := hfail 0 (Nat.succ_pos n)
    rw [Nat.add_zero] at hop hret
    obtain ⟨m', rfl⟩ : ∃ m', m = m' + 1 := ⟨m - 1, by omega⟩
    have hrec := ih m' (a + 1) (by omega)
      (fun k hk => by
        have := hfail (k + 1) (by omega)
        have h1 : a + (k + 1) = a + 1 + k := by omega
        rw [h1] at this
        exact this)
      (by
        have h1 : a + (n + 1) = a + 1 + n := by omega
        rw [h1] at hsucc
        exact hsucc)
    simp [executeFrom, hop, hret, hrec]

theorem executeFrom_fatal {α : Type} (op : Nat → OpResult α) (e : ErrKind)
    (m a : Nat) (hop : op a = .failure e) (hfat : isRetryable e = false) :
    executeFrom op a m = (.fatal e, 0) := by
  cases m <;> simp [executeFrom, hop, hfat]

/-- C3: for every retry budget and wrapped operation — (1) if the first
maxAttempts+1 invocations all fail with retryable-classified errors,
execute consumes exactly maxAttempts retries (min(maxAttempts, N) for
any N > maxAttempts consecutive failures) and fails with
ExhaustedRetries carrying the last error seen; (2) if the operation
fails with N ≤ maxAttempts consecutive retryable errors and then
succeeds, execute consumes exactly N = min(maxAttempts, N) retries and
returns the value; (3) a fatal-classified error on any invocation
propagates immediately with zero retries consumed. -/
theorem retry_controller_policy {α : Type} (maxAttempts : Nat)
    (op : Nat → OpResult α) (err : Nat → ErrKind) :
    ((∀ k ≤ maxAttempts, op k = .failure (err k) ∧
        isRetryable (err k) = true) →
      execute maxAttempts op = (.exhaustedRetries (err maxAttempts), maxAttempts)) ∧
    (∀ N v, N ≤ maxAttempts →
      (∀ k < N, op k = .failure (err k) ∧ isRetryable (err k) = true) →
      op N = .success v →
      execute maxAttempts op = (.value v, N)) ∧
    (∀ e, op 0 = .failure e → isRetryable e = false →
      execute maxAttempts op = (.fatal e, 0)) := by
  refine ⟨?_, ?_, ?_⟩
  · intro hfail
    have := executeFrom_exhausts op err maxAttempts 0 (fun k hk => by
      have := hfail k hk
      simpa using this)
    simpa [execute] using this
  · intro N v hle hfail hsucc
    have := executeFrom_succeeds op err v N maxAttempts 0 hle
      (fun k hk => by simpa using hfail k hk) (by simpa using hsucc)
    simpa [execute] using this
  · intro e hop hfat
    exact executeFrom_fatal op e maxAttempts 0 hop hfat

/-- Closed instance of retry_controller_policy: with budget 3, an
operation failing every time with a network timeout exhausts after
exactly 3 retries; an operation whose first invocation hits an
authorization failure propagates it with zero retries. -/
theorem retry_controller_policy_witness :
    execute 3 (fun _ => OpResult.failure (α := Nat) ErrKind.networkTimeout) =
      (ExecOutcome.exhaustedRetries ErrKind.networkTimeout, 3) ∧
    execute 3 (fun _ => OpResult.failure (α := Nat) ErrKind.authFailure) =
      (ExecOutcome.fatal ErrKind.authFailure, 0) :=
  ⟨(retry_controller_policy 3 (fun _ => OpResult.failure ErrKind.networkTimeout)
      (fun _ => ErrKind.networkTimeout)).1 (fun _ _ => ⟨rfl, rfl⟩),
   (retry_controller_policy 3 (fun _ => OpResult.failure ErrKind.authFailure)
      (fun _ => ErrKind.authFailure)).2.2 ErrKind.authFailure rfl rfl⟩

/-! ## Endpoint Resolver -/

/-- UPLOAD_URL_EXPIRE_TIME from the driver's configuration fragment:
60 minutes, in seconds. -/
def UPLOAD_URL_EXPIRE_SECONDS : Nat := 60 * 60

/-- The Endpoint cache entry from the spec's data model. -/
structure Endpoint where
  baseURL : String
  obtainedAt : Nat
  ttl : Nat
deriving Repr, DecidableEq

/-- Outcome of the one endpoint-resolution network call: the discovered
upload domain, or one of the failure modes the spec names. -/
inductive ResolveNet
  | ok (url : String)
  | timeout
  | badStatus (code : Nat)
  | malformed
deriving Repr, DecidableEq

/-- Whether the resolution network call failed. -/
def ResolveNet.isFailure : ResolveNet → Bool
  | .ok _ => false
  | .timeout => true
  | .badStatus _ => true
  | .malformed => true

/-- The resolver's configuration: the UseDynamicUploadAPI toggle and the
static UploadAPI URL (used as fallback), from the driver's Addition
struct, plus the spec's explicit fallback-disable switch. -/
structure ResolverConfig where
  useDynamicUploadAPI : Bool
  fallbackDisabled : Bool
  uploadAPI : String
deriving Repr, DecidableEq

/-- resolve() either yields an Endpoint or fails with
EndpointUnavailable. -/
inductive ResolveResult
  | endpoint (e : Endpoint)
  | endpointUnavailable
deriving Repr, DecidableEq

/-- Modelled from the spec: the Endpoint Resolver implementation is not
in the provided source (only UseDynamicUploadAPI, UploadAPI and
UPLOAD_FALLBACK_API are declared there). When dynamic resolution is
enabled, a successful network call yields its URL; on any failure the
resolver falls back to the statically configured URL unless fallback is
disabled or the fallback URL is unusable (empty), in which case it fails
with EndpointUnavailable. -/
def resolve (cfg : ResolverConfig) (net : ResolveNet) (now : Nat) : ResolveResult :=
  if cfg.useDynamicUploadAPI then
    match net with
    | .ok url => .endpoint ⟨url, now, UPLOAD_URL_EXPIRE_SECONDS⟩
    | _ =>
      if !cfg.fallbackDisabled && cfg.uploadAPI != "" then
        .endpoint ⟨cfg.uploadAPI, now, UPLOAD_URL_EXPIRE_SECONDS⟩
      else .endpointUnavailable
  else
    if cfg.uploadAPI != "" then
      .endpoint ⟨cfg.uploadAPI, now, UPLOAD_URL_EXPIRE_SECONDS⟩
    else .endpointUnavailable

/-- C6: with dynamic resolution enabled — every failure of the
resolution call (timeout, non-success status, malformed response) makes
resolve return an Endpoint built from the configured fallback URL when
fallback is not disabled and the fallback URL is usable; and resolve
yields EndpointUnavailable only when fallback is disabled or the
fallback URL is unusable. -/
theorem resolver_fallback_policy (cfg : ResolverConfig) (net : ResolveNet)
    (now : Nat) (hdyn : cfg.useDynamicUploadAPI = true) :
    (net.isFailure = true → cfg.fallbackDisabled = false → cfg.uploadAPI ≠ "" →
      resolve cfg net now =
        .endpoint ⟨cfg.uploadAPI, now, UPLOAD_URL_EXPIRE_SECONDS⟩) ∧
    (resolve cfg net now = .endpointUnavailable →
      cfg.fallbackDisabled = true ∨ cfg.uploadAPI = "") := by
  constructor
  · intro hfail hfb hurl
    cases net with
    | ok url => simp [ResolveNet.isFailure] at hfail
    | timeout => simp [resolve, hdyn, hfb, hurl]
    | badStatus code => simp [resolve, hdyn, hfb, hurl]
    | malformed => simp [resolve, hdyn, hfb, hurl]
  · intro hun
    by_contra hcon
    push_neg at hcon
    obtain ⟨hfb, hurl⟩ := hcon
    have hfb0 : cfg.fallbackDisabled = false := by
      cases h : cfg.fallbackDisabled
      · rfl
      · exact absurd h hfb
    cases net with
    | ok url => simp [resolve, hdyn] at hun
    | timeout => simp [resolve, hdyn, hfb0, hurl] at hun
    | badStatus code => simp [resolve, hdyn, hfb0, hurl] at hun
    | malformed => simp [resolve, hdyn, hfb0, hurl] at hun

/-- Closed instance of resolver_fallback_policy: a timeout with the
default configuration falls back to the static upload API. -/
theorem resolver_fallback_policy_witness :
    resolve ⟨true, false, "https://d.pcs.baidu.com"⟩ ResolveNet.timeout 0 =
      ResolveResult.endpoint
        ⟨"https://d.pcs.baidu.com", 0, UPLOAD_URL_EXPIRE_SECONDS⟩ :=
  (resolver_fallback_policy ⟨true, false, "https://d.pcs.baidu.com"⟩
      ResolveNet.timeout 0 rfl).1 rfl rfl (by decide)

/-! ## Transfer Worker Pool -/

/-- The configured upload thread count clamped into [1, 32], the
configuration constraint stated for UploadThread. -/
def clampThreads (t : Nat) : Nat := min 32 (max 1 t)

/-- Worker pool state: chunks not yet assigned, chunks currently being
transferred by a worker, and chunks finished. -/
structure PoolState where
  pending : Nat
  active : Nat
  done : Nat
deriving Repr, DecidableEq

/-- Modelled from the spec: the Transfer Worker Pool is not in the
provided source (only the UploadThread setting is declared). A step
either assigns the next unassigned chunk to a worker — allowed only
while fewer than `bound` workers are active — or lets an active worker
finish its chunk. -/
inductive PoolStep (bound : Nat) : PoolState → PoolState → Prop
  | assign (s : PoolState) : 0 < s.pending → s.active < bound →
      PoolStep bound s ⟨s.pending - 1, s.active + 1, s.done⟩
  | finish (s : PoolState) : 0 < s.active →
      PoolStep bound s ⟨s.pending, s.active - 1, s.done + 1⟩

/-- submit(chunks, uploadFn) starts with every chunk unassigned and no
worker active. -/
def initPool (n : Nat) : PoolState := ⟨n, 0, 0⟩

/-- C7: the pool's worker bound is the configured thread count clamped
into [1, 32] (the identity on counts already in range), and in every
state reachable during submit no more than that many workers are
active. -/
theorem worker_pool_bound (t n : Nat) (s : PoolState)
    (hreach : Relation.ReflTransGen (PoolStep (clampThreads t)) (initPool n) s) :
    s.active ≤ clampThreads t ∧ 1 ≤ clampThreads t ∧ clampThreads t ≤ 32 ∧
    (1 ≤ t → t ≤ 32 → clampThreads t = t) := by
  have hclamp : 1 ≤ clampThreads t ∧ clampThreads t ≤ 32 ∧
      (1 ≤ t → t ≤ 32 → clampThreads t = t) := by
    unfold clampThreads
    omega
  refine ⟨?_, hclamp.1, hclamp.2.1, hclamp.2.2⟩
  induction hreach with
  | refl => simp [initPool]
  | tail _ hstep ih =>
    cases hstep with
    | assign hp ha => simpa using ha
    | finish ha => simp; omega

/-- Closed instance of worker_pool_bound: after one assignment with
thread count 3 and two chunks, one worker is active, within the bound. -/
theorem worker_pool_bound_witness :
    (⟨1, 1, 0⟩ : PoolState).active ≤ clampThreads 3 ∧
    1 ≤ clampThreads 3 ∧ clampThreads 3 ≤ 32 ∧
    (1 ≤ 3 → 3 ≤ 32 → clampThreads 3 = 3) :=
  worker_pool_bound 3 2 ⟨1, 1, 0⟩
    (Relation.ReflTransGen.single
      (@PoolStep.assign (clampThreads 3) (initPool 2) (by decide) (by decide)))

/-! ## Single-flight endpoint re-resolution -/

/-- The guarded in-flight request holder: whether a resolution call is
in flight, how many resolution network calls were ever performed, and
how many callers are attached to the in-flight call. -/
structure SFState where
  inflight : Bool
  netCalls : Nat
  waiters : Nat
deriving Repr, DecidableEq

/-- Modelled from the spec: single-flight coordination (design note §9)
is not in the provided source. A caller observing a stale/empty cache
starts the network call only if none is in flight — otherwise it
attaches to the one already running. -/
def sfArrive (s : SFState) : SFState :=
  if s.inflight then { s with waiters := s.waiters + 1 }
  else { inflight := true, netCalls := s.netCalls + 1, waiters := 1 }

/-- n callers arrive, all before the in-flight resolution completes. -/
def sfArriveN : Nat → SFState → SFState
  | 0, s => s
  | n + 1, s => sfArriveN n (sfArrive s)

/-- Modelled from the spec: completion of the in-flight resolution hands
its result to every attached caller and clears the holder. -/
def sfComplete (r : String) (s : SFState) : SFState × List String :=
  (⟨false, s.netCalls, 0⟩, List.replicate s.waiters r)

theorem sfArriveN_inflight (n : Nat) (s : SFState) (h : s.inflight = true) :
    sfArriveN n s = ⟨true, s.netCalls, s.waiters + n⟩ := by
  induction n generalizing s with
  | zero => cases s; simp_all [sfArriveN]
  | succ m ih =>
    rw [sfArriveN, sfArrive, if_pos h, ih _ (by simpa using h)]
    simp
    omega

/-- C8: when n ≥ 1 callers observe an idle holder (no resolution in
flight) and all trigger re-resolution before the call completes, exactly
one underlying resolution network call is performed, all n callers are
attached to it, and its completion delivers the same result to every
one of them. -/
theorem single_flight_dedup (n : Nat) (s0 : SFState) (r : String)
    (hidle : s0.inflight = false) (hn : 1 ≤ n) :
    (sfArriveN n s0).netCalls = s0.netCalls + 1 ∧
    (sfArriveN n s0).waiters = n ∧
    (sfComplete r (sfArriveN n s0)).2 = List.replicate n r := by
  obtain ⟨m, rfl⟩ : ∃ m, n = m + 1 := ⟨n - 1, by omega⟩
  have harr : sfArrive s0 = ⟨true, s0.netCalls + 1, 1⟩ := by
    rw [sfArrive, if_neg (by simp [hidle])]
  have : sfArriveN (m + 1) s0 = ⟨true, s0.netCalls + 1, m + 1⟩ := by
    rw [sfArriveN, harr, sfArriveN_inflight m _ rfl]
    simp
    omega
  rw [this]
  exact ⟨rfl, rfl, rfl⟩

/-- Closed instance of single_flight_dedup: three simultaneous callers
on an idle holder cause one network call and all three share its
result. -/
theorem single_flight_dedup_witness :
    (sfArriveN 3 ⟨false, 0, 0⟩).netCalls = 0 + 1 ∧
    (sfArriveN 3 ⟨false, 0, 0⟩).waiters = 3 ∧
    (sfComplete "https://u.example" (sfArriveN 3 ⟨false, 0, 0⟩)).2 =
      List.replicate 3 "https://u.example" :=
  single_flight_dedup 3 ⟨false, 0, 0⟩ "https://u.example" rfl (by decide)

end AlistUpload

namespace AlistLauncher

/-- The platforms alist.js maps to an os name in getBinaryName. -/
def supportedPlatform (p : String) : Bool :=
  p == "linux" || p == "darwin" || p == "win32" || p == "freebsd"

/-- The architectures alist.js maps to a goarch name in getBinaryName. -/
def supportedArch (a : String) : Bool :=
  a == "x64" || a == "arm64" || a == "ia32" || a == "arm"

/-- getBinaryName from src/alist.js: switch on platform, then on arch,
throwing on unsupported values, otherwise returning
alist-(os)-(goarch). -/
def getBinaryName (platform arch : String) : Except String String :=
  match (if platform == "linux" then Except.ok "linux"
    else if platform == "darwin" then Except.ok "darwin"
    else if platform == "win32" then Except.ok "windows"
    else if platform == "freebsd" then Except.ok "freebsd"
    else Except.error ("Unsupported platform: " ++ platform) :
      Except String String) with
  | .error e => .error e
  | .ok os =>
    match (if arch == "x64" then Except.ok "amd64"
      else if arch == "arm64" then Except.ok "arm64"
      else if arch == "ia32" then Except.ok "386"
      else if arch == "arm" then Except.ok "arm"
      else Except.error ("Unsupported architecture: " ++ arch) :
        Except String String) with
    | .error e => .error e
    | .ok goarch => .ok ("alist-" ++ os ++ "-" ++ goarch)

/-- path.join as used by alist.js on its two-component calls. -/
def pathJoin (a b : String) : String := a ++ "/" ++ b

/-- getBinaryPath from src/alist.js: invokes getBinaryName (whose value
is never used, but whose thrown error propagates), then joins
dirname/bin with alist.exe on win32 and alist otherwise. -/
def getBinaryPath (dirname platform arch : String) : Except String String :=
  match getBinaryName platform arch with
  | .error e => .error e
  | .ok _ =>
    .ok (pathJoin (pathJoin dirname "bin")
      (if platform == "win32" then "alist.exe" else "alist"))

theorem getBinaryName_ok (p a : String) (hp : supportedPlatform p = true)
    (ha : supportedArch a = true) :
    ∃ name, getBinaryName p a = .ok name := by
  simp only [supportedPlatform, Bool.or_eq_true, beq_iff_eq] at hp
  simp only [supportedArch, Bool.or_eq_true, beq_iff_eq] at ha
  rcases hp with ((hp | hp) | hp) | hp <;>
    rcases ha with ((ha | ha) | ha) | ha <;>
    subst hp <;> subst ha <;> exact ⟨_, rfl⟩

theorem getBinaryName_arch_error (p a : String)
    (hp : supportedPlatform p = true) (ha : supportedArch a = false) :
    getBinaryName p a = .error ("Unsupported architecture: " ++ a) := by
  simp only [supportedPlatform, Bool.or_eq_true, beq_iff_eq] at hp
  simp only [supportedArch, Bool.or_eq_false_iff, beq_eq_false_iff_ne] at ha
  obtain ⟨⟨⟨h1, h2⟩, h3⟩, h4⟩ := ha
  rcases hp with ((hp | hp) | hp) | hp <;> subst hp <;>
    simp [getBinaryName, h1, h2, h3, h4]

/-- C9: in the launcher, for every supported platform and supported
architecture getBinaryPath returns dirname/bin/alist.exe when the
platform is win32 and dirname/bin/alist otherwise — a value that does
not depend on the architecture, so two runs differing only in a
supported architecture return the identical path — yet getBinaryPath
still throws for an unsupported architecture, because it invokes
getBinaryName and propagates its error even though its result is
otherwise discarded. -/
theorem binary_path_arch_independent (dirname p a a1 a2 : String) :
    (supportedPlatform p = true → supportedArch a = true →
      getBinaryPath dirname p a =
        .ok (pathJoin (pathJoin dirname "bin")
          (if p == "win32" then "alist.exe" else "alist"))) ∧
    (supportedPlatform p = true → supportedArch a1 = true →
      supportedArch a2 = true →
      getBinaryPath dirname p a1 = getBinaryPath dirname p a2) ∧
    (supportedPlatform p = true → supportedArch a = false →
      getBinaryPath dirname p a =
        .error ("Unsupported architecture: " ++ a)) := by
  have hok : ∀ b, supportedPlatform p = true → supportedArch b = true →
      getBinaryPath dirname p b =
        .ok (pathJoin (pathJoin dirname "bin")
          (if p == "win32" then "alist.exe" else "alist")) := by
    intro b hp hb
    obtain ⟨name, hname⟩ := getBinaryName_ok p b hp hb
    simp [getBinaryPath, hname]
  refine ⟨hok a, ?_, ?_⟩
  · intro hp h1 h2
    rw [hok a1 hp h1, hok a2 hp h2]
  · intro hp ha
    simp [getBinaryPath, getBinaryName_arch_error p a hp ha]

/-- Closed instance of binary_path_arch_independent: on linux the path
is the same for x64 and arm64, and a mips architecture still throws. -/
theorem binary_path_arch_independent_witness :
    getBinaryPath "/pkg" "linux" "x64" = getBinaryPath "/pkg" "linux" "arm64" ∧
    getBinaryPath "/pkg" "linux" "mips" =
      .error ("Unsupported architecture: " ++ "mips") :=
  ⟨(binary_path_arch_independent "/pkg" "linux" "x64" "x64" "arm64").2.1
      rfl rfl rfl,
   (binary_path_arch_independent "/pkg" "linux" "mips" "x64" "arm64").2.2
      rfl rfl⟩

end AlistLauncher

namespace AlistInstaller

/-- What the network answers for one URL: the HTTP status code and the
Location header (meaningful on 301/302). -/
structure HttpResponse where
  statusCode : Nat
  location : String
deriving Repr, DecidableEq

/-- Whether downloadFile treats the response for `url` as a redirect:
exactly status 301 or 302, as tested in scripts/download-binary.js. -/
def isRedirect (env : String → HttpResponse) (url : String) : Bool :=
  (env url).statusCode == 301 || (env url).statusCode == 302

/-- The URL reached after following `n` Location headers from `url`. -/
def urlAt (env : String → HttpResponse) : String → Nat → String
  | u, 0 => u
  | u, n + 1 => urlAt env ((env u).location) n

/-- Terminal outcome of downloadFile: the body was saved (status 200),
or the promise rejected with the offending status code. -/
inductive DownloadOutcome
  | saved
  | failed (code : Nat)
deriving Repr, DecidableEq

/-- downloadFile from src/scripts/download-binary.js as a big-step
relation: a 301/302 response recurses on the response's Location header
with no depth limit and no cycle detection, a 200 response resolves, and
any other status rejects. A derivation exists exactly when the recursion
terminates. -/
inductive Resolves (env : String → HttpResponse) : String → DownloadOutcome → Prop
  | redirect (url : String) (o : DownloadOutcome) :
      ((env url).statusCode = 301 ∨ (env url).statusCode = 302) →
      Resolves env ((env url).location) o →
      Resolves env url o
  | okStatus (url : String) :
      (env url).statusCode = 200 →
      Resolves env url .saved
  | errStatus (url : String) :
      (env url).statusCode ≠ 301 → (env url).statusCode ≠ 302 →
      (env url).statusCode ≠ 200 →
      Resolves env url (.failed ((env url).statusCode))

theorem resolves_of_finite_chain (env : String → HttpResponse) :
    ∀ n url, isRedirect env (urlAt env url n) = false →
      ∃ o, Resolves env url o := by
  intro n
  induction n with
  | zero =>
    intro url hstop
    simp only [urlAt, isRedirect, Bool.or_eq_false_iff, beq_eq_false_iff_ne] at hstop
    by_cases h200 : (env url).statusCode = 200
    · exact ⟨.saved, Resolves.okStatus url h200⟩
    · exact ⟨.failed ((env url).statusCode),
        Resolves.errStatus url hstop.1 hstop.2 h200⟩
  | succ n ih =>
    intro url hstop
    by_cases hred : isRedirect env url = true
    · have hsc : (env url).statusCode = 301 ∨ (env url).statusCode = 302 := by
        simp only [isRedirect, Bool.or_eq_true, beq_iff_eq] at hred
        exact hred
      obtain ⟨o, ho⟩ := ih ((env url).location) hstop
      exact ⟨o, Resolves.redirect url o hsc ho⟩
    · have : isRedirect env url = false := by
        cases h : isRedirect env url
        · rfl
        · exact absurd h hred
      simp only [isRedirect, Bool.or_eq_false_iff, beq_eq_false_iff_ne] at this
      by_cases h200 : (env url).statusCode = 200
      · exact ⟨.saved, Resolves.okStatus url h200⟩
      · exact ⟨.failed ((env url).statusCode),
          Resolves.errStatus url this.1 this.2 h200⟩

theorem finite_chain_of_resolves (env : String → HttpResponse) (url : String)
    (o : DownloadOutcome) (h : Resolves env url o) :
    ∃ n, isRedirect env (urlAt env url n) = false := by
  induction h with
  | redirect u o1 hsc _ ih =>
    obtain ⟨n, hn⟩ := ih
    exact ⟨n + 1, hn⟩
  | okStatus u h200 =>
    refine ⟨0, ?_⟩
    simp [urlAt, isRedirect, h200]
  | errStatus u h301 h302 _ =>
    refine ⟨0, ?_⟩
    simp [urlAt, isRedirect, h301, h302]

/-- C10: downloadFile follows every 301/302 response by recursing on the
Location header with no redirect limit and no cycle detection, so its
recursion reaches a terminal outcome exactly for those URLs whose
redirect chain is finite: a derivation of the download relation exists
if and only if some finite number of Location hops reaches a
non-redirect response. In particular a URL whose responses redirect
forever (for example a Location cycle) admits no outcome at all. -/
theorem download_terminates_iff_finite_redirects
    (env : String → HttpResponse) (url : String) :
    (∃ o, Resolves env url o) ↔
      (∃ n, isRedirect env (urlAt env url n) = false) := by
  constructor
  · rintro ⟨o, ho⟩
    exact finite_chain_of_resolves env url o ho
  · rintro ⟨n, hn⟩
    exact resolves_of_finite_chain env n url hn

end AlistInstaller
